import Mathlib

/-!
# Verification of the Eumenes track-matching core

Shallow embedding of the track-matching core of the Eumenes repository
(files `eumenes.py` and `anabasis.py`):

* the Distance Engine: `ro_distance` (Ratcliff/Obershelp lexical distance via
  Python's `difflib.SequenceMatcher` with junk characters `.`, `(`, `)`),
  `aceh_distance` (saturating temporal distance), and `get_tracks_distance`;
* the Resolution Policy of `eumenes.add_tracks_from_CSV` (`resolve`);
* the interactive chooser `anabasis.selectSong` (one loop iteration,
  `selectSongStep`);
* the best-match engine `anabasis.get_best_match`.

Strings are modelled as `List Char`; Python floats are modelled as real
numbers (`ℝ`), with the purely rational similarity computation kept in `ℚ`;
a Python exception escaping a function is modelled by the function returning
`none`.  The `difflib.SequenceMatcher` algorithm (build `b2j`, the
`find_longest_match` dynamic program with its four junk/non-junk extension
loops, the `get_matching_blocks` recursion and `ratio`) is ported faithfully
from CPython's `difflib.py`; the `autojunk` heuristic (which only activates
for strings of length ≥ 200) is not modelled.
-/

namespace Eumenes

/-- Python strings are modelled as lists of characters. -/
abbrev Str := List Char

/-! ## difflib.SequenceMatcher, specialised to `isjunk = lambda x: x in ".()"`

Port of CPython `difflib.py` as invoked by `anabasis.ro_distance`. -/

/-- The junk predicate `lambda x: x in ".()"` passed to `SequenceMatcher`
in `anabasis.ro_distance`. -/
def isjunk (c : Char) : Bool := c == '.' || c == '(' || c == ')'

/-- `SequenceMatcher.__chain_b`: `b2j` maps each non-junk element of `b` to the
ascending list of its positions in `b`; junk elements (and elements not in
`b`) get the empty list (`b2j.get(a[i], nothing)`). -/
def b2j (b : Str) (c : Char) : List Nat :=
  if isjunk c then [] else (List.range b.length).filter (fun j => b[j]? == some c)

/-- Validity of a single cell of the `find_longest_match` dynamic program:
`a[i]` and `b[j]` exist and are equal, `b[j]` is not junk (junk keys are
purged from `b2j`), and `j` is inside the window `[blo, bhi)` (the
`if j < blo: continue` / `if j >= bhi: break` tests). -/
def validm (a b : Str) (blo bhi : Nat) (i j : Nat) : Bool :=
  match a[i]?, b[j]? with
  | some x, some y => x == y && !isjunk y && decide (blo ≤ j) && decide (j < bhi)
  | _, _ => false

/-- Value of the `find_longest_match` dynamic program: in difflib,
`j2len[j]` is, during the iteration for row `i`, the length of the longest
junk-free match ending with `a[i]` and `b[j]`
(`k = newj2len[j] = j2lenget(j-1, 0) + 1`).  `runlen a b alo blo bhi i j`
is that value: the number of consecutive valid cells ending at `(i, j)`,
where the chain stops at row `alo` (no earlier row was processed) and at
column `0` (Python's `j2len.get(-1, 0)` returns the default `0`). -/
def runlen (a b : Str) (alo blo bhi : Nat) (i j : Nat) : Nat :=
  if validm a b blo bhi i j then
    (if h : alo < i ∧ 0 < j then runlen a b alo blo bhi (i - 1) (j - 1) else 0) + 1
  else 0
termination_by i
decreasing_by
  exact Nat.sub_lt (Nat.lt_of_le_of_lt (Nat.zero_le _) h.1) Nat.one_pos

/-- A candidate block, as difflib's `Match(besti, bestj, bestsize)`. -/
structure Match3 where
  besti : Nat
  bestj : Nat
  size : Nat
deriving Repr, DecidableEq, Inhabited

/-- The positions of `b` scanned for row `i`: `b2j.get(a[i], nothing)`
restricted to the window `[blo, bhi)`.  (`b2j` lists are ascending, so the
`break` on `j >= bhi` is equivalent to this filter.) -/
def jlist (a b : Str) (blo bhi : Nat) (i : Nat) : List Nat :=
  (match a[i]? with
   | some c => b2j b c
   | none => []).filter (fun j => decide (blo ≤ j) && decide (j < bhi))

/-- Inner loop of `find_longest_match` for one row `i`: scan the candidate
columns, updating the best block whenever the current run is strictly
longer (`if k > bestsize: besti, bestj, bestsize = i-k+1, j-k+1, k`). -/
def innerLoop (a b : Str) (alo blo bhi : Nat) (i : Nat) (m : Match3) : Match3 :=
  (jlist a b blo bhi i).foldl (fun best j =>
    let k := runlen a b alo blo bhi i j
    if best.size < k then ⟨i + 1 - k, j + 1 - k, k⟩ else best) m

/-- The main dynamic-programming loop of `find_longest_match`
(`for i in range(alo, ahi)`), starting from
`besti, bestj, bestsize = alo, blo, 0`. -/
def coreLoop (a b : Str) (alo ahi blo bhi : Nat) : Match3 :=
  (List.range' alo (ahi - alo)).foldl
    (fun best i => innerLoop a b alo blo bhi i best) ⟨alo, blo, 0⟩

/-- Character comparison used by the four extension loops: both positions
exist, the characters are equal, and the junk status of the `b` character
matches `junkF` (the non-junk loops require `not isbjunk(b[...])`, the junk
loops require `isbjunk(b[...])`). -/
def chEq (x y : Option Char) (junkF : Bool) : Bool :=
  match x, y with
  | some u, some v => u == v && isjunk v == junkF
  | _, _ => false

/-- Backward extension loop of `find_longest_match`
(`while besti > alo and bestj > blo and ... : besti, bestj, bestsize =
besti-1, bestj-1, bestsize+1`), for junk (`junkF = true`) or non-junk
(`junkF = false`) characters. -/
def extendBack (a b : Str) (alo blo : Nat) (junkF : Bool) (m : Match3) : Match3 :=
  if h : alo < m.besti ∧ blo < m.bestj ∧
      chEq (a[m.besti - 1]?) (b[m.bestj - 1]?) junkF = true then
    extendBack a b alo blo junkF ⟨m.besti - 1, m.bestj - 1, m.size + 1⟩
  else m
termination_by m.besti
decreasing_by
  exact Nat.sub_lt (Nat.lt_of_le_of_lt (Nat.zero_le _) h.1) Nat.one_pos

/-- Forward extension loop of `find_longest_match`
(`while besti+bestsize < ahi and bestj+bestsize < bhi and ... :
bestsize += 1`), for junk or non-junk characters. -/
def extendFwd (a b : Str) (ahi bhi : Nat) (junkF : Bool) (m : Match3) : Match3 :=
  if h : m.besti + m.size < ahi ∧ m.bestj + m.size < bhi ∧
      chEq (a[m.besti + m.size]?) (b[m.bestj + m.size]?) junkF = true then
    extendFwd a b ahi bhi junkF ⟨m.besti, m.bestj, m.size + 1⟩
  else m
termination_by ahi - (m.besti + m.size)
decreasing_by
  omega

/-- `SequenceMatcher.find_longest_match(alo, ahi, blo, bhi)`: the core
dynamic program followed by the four extension loops, in difflib's order
(backward non-junk, forward non-junk, backward junk, forward junk). -/
def find_longest_match (a b : Str) (alo ahi blo bhi : Nat) : Match3 :=
  extendFwd a b ahi bhi true (extendBack a b alo blo true
    (extendFwd a b ahi bhi false (extendBack a b alo blo false
      (coreLoop a b alo ahi blo bhi))))

/-- Total number of matched characters of `SequenceMatcher
.get_matching_blocks`, restricted to the window `[alo, ahi) × [blo, bhi)`:
take the longest match; if it is non-empty, recurse on the two unknown
regions exactly as difflib's queue does (`if alo < i and blo < j` /
`if i+k < ahi and j+k < bhi`).  `ratio` only uses the sum of the block
sizes, so the block list itself (and difflib's collapsing of adjacent
blocks) need not be modelled.  The recursion is driven by explicit fuel;
each recursive call strictly shrinks `(ahi - alo) + (bhi - blo)`, so the
fuel used by `matchTotal` below is always sufficient. -/
def matchTotalAux (a b : Str) : Nat → Nat → Nat → Nat → Nat → Nat
  | 0, _, _, _, _ => 0
  | fuel + 1, alo, ahi, blo, bhi =>
    let m := find_longest_match a b alo ahi blo bhi
    if m.size = 0 then 0
    else m.size
      + (if alo < m.besti ∧ blo < m.bestj then
          matchTotalAux a b fuel alo m.besti blo m.bestj else 0)
      + (if m.besti + m.size < ahi ∧ m.bestj + m.size < bhi then
          matchTotalAux a b fuel (m.besti + m.size) ahi (m.bestj + m.size) bhi else 0)

/-- `matches = sum(triple[-1] for triple in self.get_matching_blocks())`. -/
def matchTotal (a b : Str) : Nat :=
  matchTotalAux a b (a.length + b.length) 0 a.length 0 b.length

/-- `SequenceMatcher.ratio()` via `_calculate_ratio(matches, len(a)+len(b))`:
`2.0 * matches / length` when `length` is non-zero, else `1.0`. -/
def ratioQ (a b : Str) : ℚ :=
  if a.length + b.length = 0 then 1
  else 2 * (matchTotal a b : ℚ) / ((a.length : ℚ) + (b.length : ℚ))

/-- Python `str.upper`, modelled characterwise (`Char.toUpper`). -/
def upperStr (s : Str) : Str := s.map Char.toUpper

/-- `anabasis.ro_distance`: `1.0 - SequenceMatcher(lambda x: x in ".()",
a.upper(), b.upper()).ratio()`. -/
def ro_distance (a b : Str) : ℚ := 1 - ratioQ (upperStr a) (upperStr b)

/-! ## Release-date parsing and the temporal distance

`anabasis.aceh_distance` parses its two arguments with `arrow.get`.  The
`arrow` library is modelled for the date formats this program feeds it
(Spotify `release_date`: `YYYY`, `YYYY-MM` or `YYYY-MM-DD`; iTunes
`releaseDate`: ISO 8601 timestamps `YYYY-MM-DDThh:mm:ssZ`, whose time part
`arrow` reduces to a same-day offset that never changes the day count by
a full day in the directions this program subtracts): a date is parsed to
its proleptic-Gregorian day number in `ℤ`, an unparseable string is a raised
`ParserError`, modelled as `none`. -/

/-- Decimal value of a list of digit characters. -/
def digitsToNat (cs : Str) : Nat := cs.foldl (fun n c => 10 * n + (c.toNat - '0'.toNat)) 0

/-- Gregorian leap-year rule. -/
def isLeap (y : Nat) : Bool := (y % 4 == 0 && y % 100 != 0) || y % 400 == 0

/-- Number of days of month `m` in year `y`. -/
def daysInMonth (y m : Nat) : Nat :=
  if m == 2 then (if isLeap y then 29 else 28)
  else if m == 4 || m == 6 || m == 9 || m == 11 then 30 else 31

/-- Day number of the calendar date `y-m-d` (days since 0000-03-01,
proleptic Gregorian, standard civil-date formula; years before 1 do not
occur in the parsed formats). -/
def civilDays (y m d : Nat) : Int :=
  let ys : Nat := if 2 < m then y else y - 1
  let ms : Nat := if 2 < m then m - 3 else m + 9
  ((365 * ys + ys / 4 - ys / 100 + ys / 400 + (153 * ms + 2) / 5 + d - 1 : Nat) : Int)

/-- Parse the date part of an ISO 8601 string: `YYYY`, `YYYY-MM` or
`YYYY-MM-DD` made of decimal digits; anything else is unparseable.
Missing month and day default to 1, as in `arrow.get`. -/
def parseYMD (core : Str) : Option (Nat × Nat × Nat) :=
  match core with
  | [y1, y2, y3, y4] =>
    if [y1, y2, y3, y4].all Char.isDigit then
      some (digitsToNat [y1, y2, y3, y4], 1, 1)
    else none
  | [y1, y2, y3, y4, '-', m1, m2] =>
    if [y1, y2, y3, y4, m1, m2].all Char.isDigit then
      some (digitsToNat [y1, y2, y3, y4], digitsToNat [m1, m2], 1)
    else none
  | [y1, y2, y3, y4, '-', m1, m2, '-', d1, d2] =>
    if [y1, y2, y3, y4, m1, m2, d1, d2].all Char.isDigit then
      some (digitsToNat [y1, y2, y3, y4], digitsToNat [m1, m2], digitsToNat [d1, d2])
    else none
  | _ => none

/-- `arrow.get` on a release-date string (see the section comment): the day
number of the parsed calendar date, or `none` (a raised `ParserError`) when
the string does not carry a valid date.  A time part after `'T'` is
dropped. -/
def parseDate (s : Str) : Option Int :=
  match parseYMD (s.takeWhile (fun c => c != 'T')) with
  | some (y, m, d) =>
    if 1 ≤ m && m ≤ 12 && 1 ≤ d && d ≤ daysInMonth y m then
      some (civilDays y m d)
    else none
  | none => none

/-- The saturating transform of `anabasis.aceh_distance`:
`f = math.log(1 + delta) / (1 + math.log(1 + delta))`. -/
noncomputable def acehF (delta : ℝ) : ℝ :=
  Real.log (1 + delta) / (1 + Real.log (1 + delta))

/-- `anabasis.aceh_distance` on two parsed dates:
`delta = math.fabs((ad - bd).days) / 365`, then the saturating transform. -/
noncomputable def aceh_days (da db : Int) : ℝ :=
  acehF (((da - db).natAbs : ℝ) / 365)

/-- `anabasis.aceh_distance(a, b)`: parse both dates with `arrow.get`
(a parsing failure raises, modelled as `none`), then apply the transform to
the day difference. -/
noncomputable def aceh_distance (a b : Str) : Option ℝ :=
  match parseDate a, parseDate b with
  | some da, some db => some (aceh_days da db)
  | _, _ => none

/-! ## anabasis.get_tracks_distance -/

/-- `anabasis.get_tracks_distance`: square the three Ratcliff/Obershelp
sub-distances and the temporal sub-distance, and return
`math.sqrt(math.fsum([d_track, d_artist, d_album, d_years])) / 2.0`.
An unparseable date makes `aceh_distance` raise, which propagates
(modelled as `none`). -/
noncomputable def get_tracks_distance
    (aTrack aArtist aAlbum aYear bTrack bArtist bAlbum bYear : Str) : Option ℝ :=
  (aceh_distance aYear bYear).map (fun dYears =>
    Real.sqrt (((ro_distance aTrack bTrack : ℚ) : ℝ) ^ 2
      + ((ro_distance aArtist bArtist : ℚ) : ℝ) ^ 2
      + ((ro_distance aAlbum bAlbum : ℚ) : ℝ) ^ 2
      + dYears ^ 2) / 2)

/-! ## Track descriptors and the per-track Resolution Policy -/

/-- A Spotify source-track descriptor, as read from one CSV row in
`eumenes.add_tracks_from_CSV` (`song = {'title': ..., 'artist': ...,
'album': ..., 'release_date': ...}`). -/
structure SpfTrack where
  title : Str
  artist : Str
  album : Str
  release_date : Str
deriving Repr, DecidableEq, Inhabited

/-- An iTunes candidate record, restricted to the fields the matching core
reads (`trackName`, `artistName`, `collectionName`,
`collectionCensoredName`, `releaseDate`, `trackId`). -/
structure AMTrack where
  trackName : Str
  artistName : Str
  collectionName : Str
  collectionCensoredName : Str
  releaseDate : Str
  trackId : Nat
deriving Repr, DecidableEq, Inhabited

/-- `eumenes.distance(am_track, spf_track)`: wrapper calling
`anabasis.get_tracks_distance` with the iTunes fields on the `a` side and
the Spotify fields on the `b` side. -/
noncomputable def distance (am : AMTrack) (spf : SpfTrack) : Option ℝ :=
  get_tracks_distance am.trackName am.artistName am.collectionName am.releaseDate
    spf.title spf.artist spf.album spf.release_date

/-- Sort key used by `sorted(candidates, key=lambda x: distance(x, song))`.
Under the guard that every key computation succeeded, the default value is
never used. -/
noncomputable def distKey (song : SpfTrack) (c : AMTrack) : ℝ :=
  (distance c song).getD 0

/-- Outcome of the per-track Resolution Policy (spec §4.2): a selected
candidate, a skipped track, or control handed to the interactive chooser
together with the full ranked candidate list. -/
inductive Decision where
  | selected (t : AMTrack)
  | skipped
  | deferToUser (ranked : List AMTrack)
deriving Repr, DecidableEq, Inhabited

/-- The per-track candidate-resolution logic of
`eumenes.add_tracks_from_CSV` (the body of the CSV row loop, lines
151-188), with parameters `err = _err`, `auto = _auto`,
`thresh = _treshold`:

* no candidate: the row is skipped (`continue`);
* exactly one candidate: selected without any distance computation;
* otherwise `sorted(candidates, key=lambda x: distance(x, song))` (a stable
  sort on the distance keys; a date-parsing exception raised while
  computing any key propagates, modelled by the `all ... isSome` guard and
  the `none` result), then the three-tier rule on the distance `dist` of
  the first ranked candidate: `dist < _err` selects it; else
  `_auto and dist < _treshold` selects it; else `anabasis.selectSong` is
  invoked on the ranked list (modelled as `Decision.deferToUser`).

Python's stable ascending sort is `List.mergeSort` with the
non-strict comparison on keys (equal keys keep original order). -/
noncomputable def resolve (song : SpfTrack) (candidates : List AMTrack)
    (err thresh : ℝ) (auto : Bool) : Option Decision :=
  match candidates with
  | [] => some Decision.skipped
  | [c] => some (Decision.selected c)
  | _ =>
    if candidates.all (fun c => (distance c song).isSome) then
      let ranked := candidates.mergeSort (fun x y => decide (distKey song x ≤ distKey song y))
      let d := distKey song ranked.headI
      if d < err then some (Decision.selected ranked.headI)
      else if auto = true ∧ d < thresh then some (Decision.selected ranked.headI)
      else some (Decision.deferToUser ranked)
    else none

/-! ## anabasis.selectSong (the interactive chooser) -/

/-- Result of handling one user reply inside `anabasis.selectSong`'s
`while True` loop: skip the track (`return None`), return a chosen
candidate, keep looping with a (possibly unchanged) page number, or raise
an `IndexError` from an out-of-range list subscript. -/
inductive ChooserStep where
  | skipTrack
  | chosen (t : AMTrack)
  | page (p : Nat)
  | indexError
deriving Repr, DecidableEq, Inhabited

/-- Python `str.lower`, modelled characterwise. -/
def lowerStr (s : Str) : Str := s.map Char.toLower

/-- Python `str.isdigit` restricted to ASCII digits (the only digits typed
at the chooser prompt): non-empty and all characters `0`-`9`. -/
def isDigitStr (s : Str) : Bool := !s.isEmpty && s.all Char.isDigit

/-- One iteration of `anabasis.selectSong(songs, desiredSong)`'s reply
handling, given the current `page` (with `pageSize = 10`) and the reply
`ans`:

* `'s'` skips the track;
* `'n'` advances the page unless `page + 1 > int(nSongs / pageSize)`;
* `'p'` goes back one page unless already on page 0;
* a digit string returns `songs[int(ans)]` — an index into the full list,
  which raises `IndexError` when out of range;
* anything else returns `songs[0]`. -/
def selectSongStep (songs : List AMTrack) (page : Nat) (ans : Str) : ChooserStep :=
  if lowerStr ans = ['s'] then ChooserStep.skipTrack
  else if lowerStr ans = ['n'] then
    ChooserStep.page (if songs.length / 10 < page + 1 then page else page + 1)
  else if lowerStr ans = ['p'] then
    ChooserStep.page (if page = 0 then page else page - 1)
  else if isDigitStr ans then
    match songs[digitsToNat ans]? with
    | some t => ChooserStep.chosen t
    | none => ChooserStep.indexError
  else
    match songs[0]? with
    | some t => ChooserStep.chosen t
    | none => ChooserStep.indexError

/-! ## anabasis.get_best_match -/

/-- `anabasis.get_best_match(a_track, a_artist, a_album, a_year, tracks)`:
starting from `nearest = 1.0`, `best_match = None`, scan the candidates and
keep the first one whose distance strictly improves on `nearest`.  A
date-parsing exception raised by any distance computation propagates out
(modelled by the `all ... isSome` guard and the `none` result). -/
noncomputable def get_best_match (aTrack aArtist aAlbum aYear : Str)
    (tracks : List AMTrack) : Option (ℝ × Option AMTrack) :=
  if tracks.all (fun tr => (get_tracks_distance aTrack aArtist aAlbum aYear
      tr.trackName tr.artistName tr.collectionName tr.releaseDate).isSome) then
    some (tracks.foldl (fun acc tr =>
      let d := (get_tracks_distance aTrack aArtist aAlbum aYear
        tr.trackName tr.artistName tr.collectionName tr.releaseDate).getD 1
      if d < acc.1 then (d, some tr) else acc) ((1 : ℝ), (none : Option AMTrack)))
  else none

/-- Diagonal invariant of the core loop when both sequences are the same
string `s` and the two windows agree (`alo = blo`): after processing the
rows below `n`, the best block is diagonal, a zero-size best is still the
initial `(alo, alo, 0)`, and the best size dominates every diagonal run
ending at a processed row. -/
def DiagInv (s : Str) (alo bhi n : Nat) (m : Match3) : Prop :=
  m.besti = m.bestj
  ∧ (m.size = 0 → m = ⟨alo, alo, 0⟩)
  ∧ (∀ d, alo ≤ d → d < n → runlen s s alo alo bhi d d ≤ m.size)

/-- The distance `get_best_match` computes for one candidate record. -/
noncomputable def gbmDist (aT aA aAl aY : Str) (tr : AMTrack) : Option ℝ :=
  get_tracks_distance aT aA aAl aY tr.trackName tr.artistName tr.collectionName tr.releaseDate

/-- Loop invariant of `get_best_match`'s scan: after processing `seen`,
either no candidate has beaten the initial `nearest = 1.0` (and every seen
candidate scores at least 1), or the accumulator holds the first seen
candidate attaining the strict minimum, which is below 1. -/
def GBMInv (aT aA aAl aY : Str) (seen : List AMTrack) (acc : ℝ × Option AMTrack) : Prop :=
  (acc.2 = none → acc.1 = 1
    ∧ ∀ tr ∈ seen, ∀ dv, gbmDist aT aA aAl aY tr = some dv → 1 ≤ dv)
  ∧ (∀ t, acc.2 = some t → t ∈ seen ∧ gbmDist aT aA aAl aY t = some acc.1
    ∧ acc.1 < 1
    ∧ ∀ tr ∈ seen, ∀ dv, gbmDist aT aA aAl aY tr = some dv → acc.1 ≤ dv)

/-! ## Concrete test data -/

/-- A concrete Spotify source track (the spec's worked example). -/
def spotSong : SpfTrack :=
  ⟨ "Hello".toList, "Adele".toList, "25".toList, "2015-10-23".toList ⟩

/-- A concrete iTunes candidate with a parseable release date. -/
def amGood : AMTrack :=
  ⟨ "Hello".toList, "Adele".toList, "25".toList, "25".toList, "2015-10-23".toList, 1 ⟩

/-- A concrete iTunes candidate whose release date does not parse. -/
def amBad : AMTrack :=
  ⟨ "Hello".toList, "Adele".toList, "25".toList, "25".toList, "not-a-date".toList, 2 ⟩

/-- A concrete iTunes candidate lexically far from `spotSong`. -/
def amFar : AMTrack :=
  ⟨ "Umbrella".toList, "Rihanna".toList, "Good Girl Gone Bad".toList,
    "Good Girl Gone Bad".toList, "2007-06-05".toList, 3 ⟩

/-- Window invariant of `find_longest_match` blocks: the block starts at or
after `(alo, blo)`; a zero-size block still sits at the loop's initial
position `(alo, blo)`; a non-empty block lies wholly inside the window. -/
def MInv (alo ahi blo bhi : Nat) (m : Match3) : Prop :=
  alo ≤ m.besti ∧ blo ≤ m.bestj
  ∧ (m.size = 0 → m.besti = alo ∧ m.bestj = blo)
  ∧ (0 < m.size → m.besti + m.size ≤ ahi ∧ m.bestj + m.size ≤ bhi)

/-! ## Helper lemmas -/

/-- Unfolding of `resolve` on a list with at least two candidates. -/
theorem resolve_cons₂ (song : SpfTrack) (c1 c2 : AMTrack) (rest : List AMTrack)
    (err thresh : ℝ) (auto : Bool) :
    resolve song (c1 :: c2 :: rest) err thresh auto =
      (if (c1 :: c2 :: rest).all (fun c => (distance c song).isSome) then
        let ranked := (c1 :: c2 :: rest).mergeSort
          (fun x y => decide (distKey song x ≤ distKey song y))
        let d := distKey song ranked.headI
        if d < err then some (Decision.selected ranked.headI)
        else if auto = true ∧ d < thresh then some (Decision.selected ranked.headI)
        else some (Decision.deferToUser ranked)
      else none) := rfl

/-- A candidate whose release date does not parse has no distance to any
source track (the `arrow.get` exception propagates). -/
theorem distance_eq_none_of_bad_date {am : AMTrack} (spf : SpfTrack)
    (h : parseDate am.releaseDate = none) : distance am spf = none := by
  simp [distance, get_tracks_distance, aceh_distance, h]

/-- A candidate's distance to a source track exists iff both release dates
parse. -/
theorem distance_isSome_iff (am : AMTrack) (spf : SpfTrack) :
    (distance am spf).isSome =
      ((parseDate am.releaseDate).isSome && (parseDate spf.release_date).isSome) := by
  simp only [distance, get_tracks_distance, Option.isSome_map, aceh_distance]
  rcases ha : parseDate am.releaseDate with _ | da <;>
    rcases hb : parseDate spf.release_date with _ | db <;> simp

/-- ASCII lowering does not change a decimal digit. -/
theorem toLower_of_isDigit {c : Char} (h : c.isDigit = true) : c.toLower = c := by
  simp only [Char.isDigit, Bool.and_eq_true, decide_eq_true_eq] at h
  have h2 : c.val.toNat ≤ 57 := by
    have := h.2
    rw [UInt32.le_def] at this
    simpa using this
  simp only [Char.toLower, Char.toNat]
  rw [if_neg]
  omega

/-- If an all-digits reply lowers to a single character, that character is a
digit (so it is none of the chooser commands `s`, `n`, `p`). -/
theorem isDigit_of_lowerStr_single {ans : Str} {ch : Char}
    (h : isDigitStr ans = true) (hch : lowerStr ans = [ch]) : ch.isDigit = true := by
  match ans with
  | [] => simp [isDigitStr] at h
  | c :: t =>
    simp only [lowerStr, List.map_cons, List.cons.injEq] at hch
    have ht : t = [] := by
      rcases t with _ | ⟨x, xs⟩
      · rfl
      · simp at hch
    subst ht
    simp only [isDigitStr, Bool.and_eq_true, List.all_cons, Bool.and_true, List.all_nil] at h
    have := toLower_of_isDigit h.2
    rw [← hch.1, this]
    exact h.2

/-! ## Properties of the saturating temporal transform -/

/-- `acehF` is non-negative on non-negative deltas. -/
theorem acehF_nonneg {x : ℝ} (hx : 0 ≤ x) : 0 ≤ acehF x := by
  have hL : 0 ≤ Real.log (1 + x) := Real.log_nonneg (by linarith)
  exact div_nonneg hL (by linarith)

/-- `acehF` stays strictly below 1 for every finite delta. -/
theorem acehF_lt_one {x : ℝ} (hx : 0 ≤ x) : acehF x < 1 := by
  have hL : 0 ≤ Real.log (1 + x) := Real.log_nonneg (by linarith)
  rw [acehF, div_lt_one (by linarith)]
  linarith

/-- `acehF` is monotone on non-negative deltas. -/
theorem acehF_mono {x y : ℝ} (hx : 0 ≤ x) (hxy : x ≤ y) : acehF x ≤ acehF y := by
  have hLx : 0 ≤ Real.log (1 + x) := Real.log_nonneg (by linarith)
  have hLxy : Real.log (1 + x) ≤ Real.log (1 + y) :=
    Real.log_le_log (by linarith) (by linarith)
  rw [acehF, acehF, div_le_div_iff₀ (by linarith) (by linarith)]
  nlinarith

/-- `aceh_days` is non-negative and strictly below 1. -/
theorem aceh_days_bounds (da db : Int) : 0 ≤ aceh_days da db ∧ aceh_days da db < 1 := by
  have hd : (0 : ℝ) ≤ ((da - db).natAbs : ℝ) / 365 := by positivity
  exact ⟨acehF_nonneg hd, acehF_lt_one hd⟩

/-! ## Claim C7 -/

/-- C7: for release dates that parse, the temporal sub-distance
`aceh_distance` equals the saturating transform of the day gap; it is
monotonically non-decreasing in the absolute number of days between the two
dates, equals 0 when the two dates are the same day, and is strictly less
than 1 for every finite day gap. -/
theorem aceh_temporal_props (a b c d : Str) (da db dc dd : Int)
    (ha : parseDate a = some da) (hb : parseDate b = some db)
    (hc : parseDate c = some dc) (hd : parseDate d = some dd) :
    aceh_distance a b = some (aceh_days da db)
    ∧ ((da - db).natAbs ≤ (dc - dd).natAbs → aceh_days da db ≤ aceh_days dc dd)
    ∧ (da = db → aceh_days da db = 0)
    ∧ 0 ≤ aceh_days da db ∧ aceh_days da db < 1 := by
  refine ⟨by simp [aceh_distance, ha, hb], ?_, ?_, aceh_days_bounds da db⟩
  · intro hle
    refine acehF_mono (by positivity) ?_
    have hcast : ((da - db).natAbs : ℝ) ≤ ((dc - dd).natAbs : ℝ) := by exact_mod_cast hle
    exact div_le_div_of_nonneg_right hcast (by norm_num)
  · intro heq
    subst heq
    simp [aceh_days, acehF, Real.log_one]

/-- Witness for C7 at concrete dates: 28 days apart versus 3653 days apart,
and a same-day pair. -/
theorem aceh_temporal_props_witness :
    aceh_distance ("2015-10-23".toList) ("2015-11-20".toList)
      = some (aceh_days (civilDays 2015 10 23) (civilDays 2015 11 20))
    ∧ aceh_days (civilDays 2015 10 23) (civilDays 2015 11 20)
        ≤ aceh_days (civilDays 2000 1 1) (civilDays 2010 1 1)
    ∧ aceh_days (civilDays 2015 10 23) (civilDays 2015 10 23) = 0
    ∧ aceh_days (civilDays 2015 10 23) (civilDays 2015 11 20) < 1 := by
  obtain ⟨h1, h2, -, -, h5⟩ := aceh_temporal_props
    ("2015-10-23".toList) ("2015-11-20".toList)
    ("2000-01-01".toList) ("2010-01-01".toList)
    (civilDays 2015 10 23) (civilDays 2015 11 20)
    (civilDays 2000 1 1) (civilDays 2010 1 1)
    (by decide) (by decide) (by decide) (by decide)
  obtain ⟨-, -, h3, -⟩ := aceh_temporal_props
    ("2015-10-23".toList) ("2015-10-23".toList)
    ("2000-01-01".toList) ("2010-01-01".toList)
    (civilDays 2015 10 23) (civilDays 2015 10 23)
    (civilDays 2000 1 1) (civilDays 2010 1 1)
    (by decide) (by decide) (by decide) (by decide)
  exact ⟨h1, h2 (by decide), h3 rfl, h5⟩

/-! ## Claim C4 -/

/-- C4: resolving against a candidate list with exactly one candidate
returns `Selected` of that candidate, with no distance computation and
regardless of how far that candidate is (the statement holds for every
candidate, including one whose release date does not even parse — no
distance gate is applied). -/
theorem resolve_singleton_selected (song : SpfTrack) (c : AMTrack)
    (err thresh : ℝ) (auto : Bool) :
    resolve song [c] err thresh auto = some (Decision.selected c) := rfl

/-! ## Claim C2 -/

/-- C2 (counterexample): with two candidates of which one has an
unparseable release date, `resolve` does not exclude the failing candidate
and continue — the `arrow.ParserError` raised inside the sort-key
computation propagates out of the resolution (result `none`), contradicting
the claim that parsing failures are isolated per-candidate and never
propagate. -/
theorem resolve_unparseable_candidate_none :
    resolve spotSong [amGood, amBad] ((11 : ℝ) / 100) ((2 : ℝ) / 5) false = none := by
  rw [resolve_cons₂]
  have hbad : distance amBad spotSong = none :=
    distance_eq_none_of_bad_date _ (by decide)
  have hall : ([amGood, amBad].all (fun c => (distance c spotSong).isSome)) = false := by
    rw [List.all_eq_false]
    exact ⟨amBad, by simp, by simp [hbad]⟩
  rw [hall]
  rfl

/-- C2 (amended): a release-date parsing failure during the distance
computation of any candidate (in the multi-candidate branch) aborts the
whole resolution — the exception propagates out of
`sorted(candidates, key=...)` — rather than excluding that candidate from
the ranking; in particular, when every candidate fails to parse the result
is the propagated exception, not `Skipped`. -/
theorem resolve_parse_failure_aborts (song : SpfTrack) (c1 c2 : AMTrack)
    (rest : List AMTrack) (err thresh : ℝ) (auto : Bool) (c : AMTrack)
    (hc : c ∈ c1 :: c2 :: rest) (hnone : distance c song = none) :
    resolve song (c1 :: c2 :: rest) err thresh auto = none := by
  rw [resolve_cons₂]
  have hall : ((c1 :: c2 :: rest).all (fun c => (distance c song).isSome)) = false := by
    rw [List.all_eq_false]
    exact ⟨c, hc, by simp [hnone]⟩
  rw [hall]
  rfl

/-- Witness for C2's amended theorem at a concrete input. -/
theorem resolve_parse_failure_aborts_witness :
    amBad ∈ [amGood, amBad] ∧ distance amBad spotSong = none ∧
      resolve spotSong [amGood, amBad] 1 1 true = none := by
  have hnone : distance amBad spotSong = none :=
    distance_eq_none_of_bad_date _ (by decide)
  exact ⟨by simp, hnone,
    resolve_parse_failure_aborts spotSong amGood amBad [] 1 1 true amBad (by simp) hnone⟩

/-! ## Claim C3 -/

/-- C3 (counterexample): with two candidates, the numeric reply `5` is out
of range and the chooser raises `IndexError` (`songs[int(ans)]`), so the
chooser does not tolerate out-of-range numeric input by defaulting to
index 0 or skipping. -/
theorem selectSong_out_of_range_error :
    selectSongStep [amGood, amBad] 0 ['5'] = ChooserStep.indexError := by rfl

/-- C3 (amended): a reply that is non-numeric and not one of the commands
`s`, `n`, `p` selects index 0 of the (non-empty) candidate list and never
fails, but a numeric reply whose index is out of range raises an
`IndexError` instead of defaulting or skipping. -/
theorem selectSong_default_and_out_of_range (songs : List AMTrack) (page : Nat) (ans : Str) :
    (isDigitStr ans = false → lowerStr ans ≠ ['s'] → lowerStr ans ≠ ['n'] →
      lowerStr ans ≠ ['p'] → songs ≠ [] →
      selectSongStep songs page ans = ChooserStep.chosen songs.headI)
    ∧ (isDigitStr ans = true → songs.length ≤ digitsToNat ans →
      selectSongStep songs page ans = ChooserStep.indexError) := by
  constructor
  · intro hd hs hn hp hne
    rcases songs with _ | ⟨t, ts⟩
    · exact absurd rfl hne
    · simp [selectSongStep, hs, hn, hp, hd, List.headI]
  · intro hd hlen
    have hs : lowerStr ans ≠ ['s'] := fun h => by
      have := isDigit_of_lowerStr_single hd h
      simp at this
    have hn : lowerStr ans ≠ ['n'] := fun h => by
      have := isDigit_of_lowerStr_single hd h
      simp at this
    have hp : lowerStr ans ≠ ['p'] := fun h => by
      have := isDigit_of_lowerStr_single hd h
      simp at this
    have hnone : songs[digitsToNat ans]? = none := List.getElem?_eq_none hlen
    simp [selectSongStep, hs, hn, hp, hd, hnone]

/-- Witness for C3's amended theorem at concrete inputs. -/
theorem selectSong_default_and_out_of_range_witness :
    selectSongStep [amGood, amBad, amFar] 0 ("zz".toList) = ChooserStep.chosen amGood
    ∧ selectSongStep [amGood, amBad, amFar] 0 ['9'] = ChooserStep.indexError := by
  refine ⟨?_, ?_⟩
  · exact (selectSong_default_and_out_of_range [amGood, amBad, amFar] 0 ("zz".toList)).1
      (by decide) (by decide) (by decide) (by decide) (by simp)
  · exact (selectSong_default_and_out_of_range [amGood, amBad, amFar] 0 ['9']).2
      (by decide) (by decide)

/-! ## Window bounds for find_longest_match -/

/-- Fold a preserved invariant through `List.foldl`. -/
theorem foldl_invariant {α : Type} {β : Type} (P : β → Prop) (f : β → α → β)
    (l : List α) (init : β) (h0 : P init)
    (hstep : ∀ acc x, x ∈ l → P acc → P (f acc x)) : P (l.foldl f init) := by
  induction l generalizing init with
  | nil => exact h0
  | cons x xs ih =>
    exact ih (f init x) (hstep init x (List.mem_cons_self x xs) h0)
      (fun acc y hy => hstep acc y (List.mem_cons_of_mem x hy))

/-- A valid cell lies inside the column window. -/
theorem validm_window {a b : Str} {blo bhi i j : Nat}
    (h : validm a b blo bhi i j = true) : blo ≤ j ∧ j < bhi := by
  unfold validm at h
  cases ha : a[i]? with
  | none => rw [ha] at h; simp at h
  | some x =>
    cases hb : b[j]? with
    | none => rw [ha, hb] at h; simp at h
    | some y =>
      rw [ha, hb] at h
      simp only [Bool.and_eq_true, decide_eq_true_eq] at h
      exact ⟨h.1.2, h.2⟩

/-- The characters of a valid cell. -/
theorem validm_get {a b : Str} {blo bhi i j : Nat}
    (h : validm a b blo bhi i j = true) :
    ∃ y, a[i]? = some y ∧ b[j]? = some y ∧ isjunk y = false := by
  unfold validm at h
  cases ha : a[i]? with
  | none => rw [ha] at h; simp at h
  | some x =>
    cases hb : b[j]? with
    | none => rw [ha, hb] at h; simp at h
    | some y =>
      rw [ha, hb] at h
      simp only [Bool.and_eq_true, beq_iff_eq, Bool.not_eq_true',
        decide_eq_true_eq] at h
      obtain ⟨⟨⟨hxy, hjy⟩, h1⟩, h2⟩ := h
      subst hxy
      exact ⟨x, rfl, rfl, hjy⟩

/-- Building a valid cell. -/
theorem validm_intro {a b : Str} {blo bhi i j : Nat} (y : Char)
    (ha : a[i]? = some y) (hb : b[j]? = some y) (hj : isjunk y = false)
    (h1 : blo ≤ j) (h2 : j < bhi) : validm a b blo bhi i j = true := by
  unfold validm
  rw [ha, hb]
  simp [hj, h1, h2]

/-- Unfolding equation for `runlen`. -/
theorem runlen_eq (a b : Str) (alo blo bhi i j : Nat) :
    runlen a b alo blo bhi i j =
      if validm a b blo bhi i j then
        (if alo < i ∧ 0 < j then runlen a b alo blo bhi (i - 1) (j - 1) else 0) + 1
      else 0 := by
  rw [runlen]
  congr

/-- A non-zero run ending at `(i, j)` fits between `(alo, blo)` and
`(i, j)`, and `(i, j)` is a valid windowed cell. -/
theorem runlen_pos_bounds (a b : Str) (alo blo bhi : Nat) :
    ∀ i, alo ≤ i → ∀ j, 0 < runlen a b alo blo bhi i j →
      alo + runlen a b alo blo bhi i j ≤ i + 1
      ∧ blo + runlen a b alo blo bhi i j ≤ j + 1
      ∧ blo ≤ j ∧ j < bhi := by
  intro i
  induction i using Nat.strong_induction_on with
  | _ i ih =>
    intro hai j hpos
    have heq := runlen_eq a b alo blo bhi i j
    by_cases hv : validm a b blo bhi i j = true
    · rw [if_pos hv] at heq
      obtain ⟨hbj, hjb⟩ := validm_window hv
      by_cases hc : alo < i ∧ 0 < j
      · rw [if_pos hc] at heq
        rcases Nat.eq_zero_or_pos (runlen a b alo blo bhi (i - 1) (j - 1)) with h0 | hp
        · rw [h0] at heq; omega
        · have hb := ih (i - 1) (by omega) (by omega) (j - 1) hp
          omega
      · rw [if_neg hc] at heq
        omega
    · rw [if_neg hv] at heq
      omega

/-- The inner column scan preserves the window invariant. -/
theorem innerLoop_MInv {a b : Str} {alo ahi blo bhi i : Nat} {m : Match3}
    (hai : alo ≤ i) (hia : i < ahi) (hm : MInv alo ahi blo bhi m) :
    MInv alo ahi blo bhi (innerLoop a b alo blo bhi i m) := by
  unfold innerLoop
  refine foldl_invariant (MInv alo ahi blo bhi) _ _ m hm ?_
  intro acc j hj hacc
  dsimp only
  by_cases hlt : acc.size < runlen a b alo blo bhi i j
  · rw [if_pos hlt]
    have hpos : 0 < runlen a b alo blo bhi i j := lt_of_le_of_lt (Nat.zero_le _) hlt
    obtain ⟨h1, h2, h3, h4⟩ := runlen_pos_bounds a b alo blo bhi i hai j hpos
    unfold MInv
    refine ⟨by dsimp only; omega, by dsimp only; omega, ?_, ?_⟩
    · intro h0; dsimp only at h0; omega
    · intro _; dsimp only; omega
  · rw [if_neg hlt]; exact hacc

/-- The main row loop establishes the window invariant. -/
theorem coreLoop_MInv (a b : Str) (alo ahi blo bhi : Nat) :
    MInv alo ahi blo bhi (coreLoop a b alo ahi blo bhi) := by
  unfold coreLoop
  refine foldl_invariant (MInv alo ahi blo bhi) _ _ _ ?_ ?_
  · exact ⟨le_refl _, le_refl _, fun _ => ⟨rfl, rfl⟩, fun h => by simp at h⟩
  · intro acc i hi hacc
    have hmem := List.mem_range'_1.mp hi
    exact innerLoop_MInv (by omega) (by omega) hacc

/-- The backward extension loops preserve the window invariant. -/
theorem extendBack_MInv (a b : Str) (alo blo : Nat) (junkF : Bool) {ahi bhi : Nat} :
    ∀ m : Match3, MInv alo ahi blo bhi m →
      MInv alo ahi blo bhi (extendBack a b alo blo junkF m) := by
  have H : ∀ n (m : Match3), m.besti ≤ n → MInv alo ahi blo bhi m →
      MInv alo ahi blo bhi (extendBack a b alo blo junkF m) := by
    intro n
    induction n with
    | zero =>
      intro m hle hm
      rw [extendBack]
      split
      · next h => exact absurd h.1 (by omega)
      · exact hm
    | succ n ih =>
      intro m hle hm
      rw [extendBack]
      split
      · next h =>
        obtain ⟨h1, h2, h3, h4⟩ := hm
        refine ih _ (by dsimp only; omega) ⟨by dsimp only; omega, by dsimp only; omega, ?_, ?_⟩
        · intro h0; dsimp only at h0; omega
        · intro _
          dsimp only
          rcases Nat.eq_zero_or_pos m.size with h0 | hp
          · exact absurd (h3 h0).1 (by omega)
          · have := h4 hp; constructor <;> omega
      · exact hm
  exact fun m hm => H m.besti m (le_refl _) hm

/-- The forward extension loops preserve the window invariant. -/
theorem extendFwd_MInv (a b : Str) (ahi bhi : Nat) (junkF : Bool) {alo blo : Nat} :
    ∀ m : Match3, MInv alo ahi blo bhi m →
      MInv alo ahi blo bhi (extendFwd a b ahi bhi junkF m) := by
  have H : ∀ n (m : Match3), ahi - (m.besti + m.size) ≤ n → MInv alo ahi blo bhi m →
      MInv alo ahi blo bhi (extendFwd a b ahi bhi junkF m) := by
    intro n
    induction n with
    | zero =>
      intro m hle hm
      rw [extendFwd]
      split
      · next h => exact absurd h.1 (by omega)
      · exact hm
    | succ n ih =>
      intro m hle hm
      rw [extendFwd]
      split
      · next h =>
        obtain ⟨h1, h2, h3, h4⟩ := hm
        refine ih _ (by dsimp only; omega) ⟨by dsimp only; omega, by dsimp only; omega, ?_, ?_⟩
        · intro h0; dsimp only at h0; omega
        · intro _
          dsimp only
          exact ⟨by omega, by omega⟩
      · exact hm
  exact fun m hm => H (ahi - (m.besti + m.size)) m (le_refl _) hm

/-- `find_longest_match` returns a block satisfying the window invariant. -/
theorem find_longest_match_MInv (a b : Str) (alo ahi blo bhi : Nat) :
    MInv alo ahi blo bhi (find_longest_match a b alo ahi blo bhi) := by
  unfold find_longest_match
  exact extendFwd_MInv a b ahi bhi true _ (extendBack_MInv a b alo blo true _
    (extendFwd_MInv a b ahi bhi false _ (extendBack_MInv a b alo blo false _
      (coreLoop_MInv a b alo ahi blo bhi))))

/-- The total number of matched characters is at most the length of either
window. -/
theorem matchTotalAux_le (a b : Str) :
    ∀ fuel alo ahi blo bhi,
      matchTotalAux a b fuel alo ahi blo bhi ≤ min (ahi - alo) (bhi - blo) := by
  intro fuel
  induction fuel with
  | zero => intro alo ahi blo bhi; simp [matchTotalAux]
  | succ fuel ih =>
    intro alo ahi blo bhi
    simp only [matchTotalAux]
    obtain ⟨h1, h2, h3, h4⟩ := find_longest_match_MInv a b alo ahi blo bhi
    set m := find_longest_match a b alo ahi blo bhi with hmdef
    by_cases hsz : m.size = 0
    · rw [if_pos hsz]
      exact Nat.zero_le _
    · rw [if_neg hsz]
      have hp := h4 (by omega)
      have hL := ih alo m.besti blo m.bestj
      have hR := ih (m.besti + m.size) ahi (m.bestj + m.size) bhi
      by_cases hc1 : alo < m.besti ∧ blo < m.bestj
      · rw [if_pos hc1]
        by_cases hc2 : m.besti + m.size < ahi ∧ m.bestj + m.size < bhi
        · rw [if_pos hc2]; omega
        · rw [if_neg hc2]; omega
      · rw [if_neg hc1]
        by_cases hc2 : m.besti + m.size < ahi ∧ m.bestj + m.size < bhi
        · rw [if_pos hc2]; omega
        · rw [if_neg hc2]; omega

/-- `matches <= min(len(a), len(b))`. -/
theorem matchTotal_le (a b : Str) : matchTotal a b ≤ min a.length b.length := by
  have h := matchTotalAux_le a b (a.length + b.length) 0 a.length 0 b.length
  simpa using h

/-- `ratio` is non-negative. -/
theorem ratioQ_nonneg (a b : Str) : 0 ≤ ratioQ a b := by
  unfold ratioQ
  split
  · norm_num
  · positivity

/-- `ratio` is at most 1. -/
theorem ratioQ_le_one (a b : Str) : ratioQ a b ≤ 1 := by
  unfold ratioQ
  split
  · exact le_refl 1
  · next h =>
    have hpos : (0 : ℚ) < (a.length : ℚ) + (b.length : ℚ) := by
      have := Nat.pos_of_ne_zero h
      exact_mod_cast by omega
    rw [div_le_one hpos]
    have hm := matchTotal_le a b
    have h2 : 2 * matchTotal a b ≤ a.length + b.length := by omega
    exact_mod_cast h2

/-- The lexical sub-distance is non-negative. -/
theorem ro_distance_nonneg (a b : Str) : 0 ≤ ro_distance a b := by
  unfold ro_distance
  linarith [ratioQ_le_one (upperStr a) (upperStr b)]

/-- The lexical sub-distance is at most 1. -/
theorem ro_distance_le_one (a b : Str) : ro_distance a b ≤ 1 := by
  unfold ro_distance
  linarith [ratioQ_nonneg (upperStr a) (upperStr b)]

/-! ## Empty-window facts -/

/-- No characters can be matched against an empty second string. -/
theorem matchTotal_nil_right (a : Str) : matchTotal a [] = 0 := by
  have h := matchTotalAux_le a ([] : Str) (a.length + 0) 0 a.length 0 0
  simp only [matchTotal, List.length_nil]
  omega

/-- No characters can be matched against an empty first string. -/
theorem matchTotal_nil_left (b : Str) : matchTotal [] b = 0 := by
  have h := matchTotalAux_le ([] : Str) b (0 + b.length) 0 0 0 b.length
  simp only [matchTotal, List.length_nil]
  omega

/-! ## Claim C8 -/

/-- C8: the lexical similarity is total — `_calculate_ratio` returns 1 when
both strings are empty (no division by zero, field sub-distance 0), and the
ratio is 0 (field sub-distance 1, the maximal lexical distance) when
exactly one string is empty. -/
theorem ro_distance_empty_cases (s : Str) :
    ratioQ [] [] = 1 ∧ ro_distance [] [] = 0
    ∧ (s ≠ [] →
        ratioQ (upperStr s) [] = 0 ∧ ratioQ [] (upperStr s) = 0
        ∧ ro_distance s [] = 1 ∧ ro_distance [] s = 1) := by
  have h00 : ratioQ [] [] = 1 := rfl
  refine ⟨h00, ?_, ?_⟩
  · simp only [ro_distance, upperStr, List.map_nil, h00]
    norm_num
  · intro hs
    have hlen : (upperStr s).length ≠ 0 := by
      simpa [upperStr, List.length_eq_zero] using hs
    have h1 : ratioQ (upperStr s) [] = 0 := by
      unfold ratioQ
      rw [if_neg (by simpa using hlen), matchTotal_nil_right]
      simp
    have h2 : ratioQ [] (upperStr s) = 0 := by
      unfold ratioQ
      rw [if_neg (by simpa using hlen), matchTotal_nil_left]
      simp
    refine ⟨h1, h2, ?_, ?_⟩
    · simp only [ro_distance, upperStr, List.map_nil]
      rw [show List.map Char.toUpper s = upperStr s from rfl, h1]
      norm_num
    · simp only [ro_distance, upperStr, List.map_nil]
      rw [show List.map Char.toUpper s = upperStr s from rfl, h2]
      norm_num

/-- Witness for C8 at a concrete non-empty string. -/
theorem ro_distance_empty_cases_witness :
    ratioQ [] [] = 1 ∧ ro_distance [] [] = 0
    ∧ ratioQ (upperStr ("A".toList)) [] = 0 ∧ ratioQ [] (upperStr ("A".toList)) = 0
    ∧ ro_distance ("A".toList) [] = 1 ∧ ro_distance [] ("A".toList) = 1 := by
  obtain ⟨w1, w2, w3⟩ := ro_distance_empty_cases ("A".toList)
  obtain ⟨w4, w5, w6, w7⟩ := w3 (by simp)
  exact ⟨w1, w2, w4, w5, w6, w7⟩

/-! ## Claim C6 -/

/-- C6: whenever `get_tracks_distance` returns (both dates parse), the
result is non-negative and at most 1.2, and it is exactly the square root
of the sum of the four squared sub-distances, divided by 2. -/
theorem get_tracks_distance_bounds (aT aA aAl aY bT bA bAl bY : Str) (d : ℝ)
    (h : get_tracks_distance aT aA aAl aY bT bA bAl bY = some d) :
    0 ≤ d ∧ d ≤ 1.2
    ∧ ∃ dYears, aceh_distance aY bY = some dYears ∧ 0 ≤ dYears ∧ dYears < 1
      ∧ d = Real.sqrt (((ro_distance aT bT : ℚ) : ℝ) ^ 2
          + ((ro_distance aA bA : ℚ) : ℝ) ^ 2
          + ((ro_distance aAl bAl : ℚ) : ℝ) ^ 2 + dYears ^ 2) / 2 := by
  unfold get_tracks_distance at h
  obtain ⟨dy, hdy, hmap⟩ := Option.map_eq_some'.mp h
  have hb : 0 ≤ dy ∧ dy < 1 := by
    unfold aceh_distance at hdy
    cases hA : parseDate aY with
    | none => rw [hA] at hdy; simp at hdy
    | some da =>
      cases hB : parseDate bY with
      | none => rw [hA, hB] at hdy; simp at hdy
      | some db =>
        rw [hA, hB] at hdy
        simp only [Option.some.injEq] at hdy
        rw [← hdy]
        exact aceh_days_bounds da db
  have hd : d = Real.sqrt (((ro_distance aT bT : ℚ) : ℝ) ^ 2
      + ((ro_distance aA bA : ℚ) : ℝ) ^ 2
      + ((ro_distance aAl bAl : ℚ) : ℝ) ^ 2 + dy ^ 2) / 2 := hmap.symm
  have hcast : ∀ x y : Str, (0 : ℝ) ≤ ((ro_distance x y : ℚ) : ℝ)
      ∧ ((ro_distance x y : ℚ) : ℝ) ≤ 1 := by
    intro x y
    constructor
    · exact_mod_cast ro_distance_nonneg x y
    · exact_mod_cast ro_distance_le_one x y
  obtain ⟨ht0, ht1⟩ := hcast aT bT
  obtain ⟨ha0, ha1⟩ := hcast aA bA
  obtain ⟨hl0, hl1⟩ := hcast aAl bAl
  have hsum : ((ro_distance aT bT : ℚ) : ℝ) ^ 2 + ((ro_distance aA bA : ℚ) : ℝ) ^ 2
      + ((ro_distance aAl bAl : ℚ) : ℝ) ^ 2 + dy ^ 2 ≤ 4 := by
    have e1 : ((ro_distance aT bT : ℚ) : ℝ) ^ 2 ≤ 1 := pow_le_one₀ ht0 ht1
    have e2 : ((ro_distance aA bA : ℚ) : ℝ) ^ 2 ≤ 1 := pow_le_one₀ ha0 ha1
    have e3 : ((ro_distance aAl bAl : ℚ) : ℝ) ^ 2 ≤ 1 := pow_le_one₀ hl0 hl1
    have e4 : dy ^ 2 ≤ 1 := pow_le_one₀ hb.1 (le_of_lt hb.2)
    linarith
  refine ⟨?_, ?_, dy, hdy, hb.1, hb.2, hd⟩
  · rw [hd]; positivity
  · rw [hd]
    have hs4 : Real.sqrt (((ro_distance aT bT : ℚ) : ℝ) ^ 2
        + ((ro_distance aA bA : ℚ) : ℝ) ^ 2
        + ((ro_distance aAl bAl : ℚ) : ℝ) ^ 2 + dy ^ 2) ≤ Real.sqrt 4 :=
      Real.sqrt_le_sqrt hsum
    have h42 : Real.sqrt 4 = 2 := by
      rw [show (4 : ℝ) = 2 ^ 2 by norm_num]
      exact Real.sqrt_sq (by norm_num)
    rw [h42] at hs4
    norm_num
    linarith

/-- `arrow.get` on the concrete date `2015-10-23`. -/
theorem parse_20151023 : parseDate ("2015-10-23".toList) = some (civilDays 2015 10 23) := by
  decide

/-- `arrow.get` on the concrete date `2015-11-20`. -/
theorem parse_20151120 : parseDate ("2015-11-20".toList) = some (civilDays 2015 11 20) := by
  decide

/-- Witness for C6 at the spec's worked example (`Hello` / `Adele` / `25`
versus `25 (Deluxe)`, four weeks apart). -/
theorem get_tracks_distance_bounds_witness :
    get_tracks_distance ("Hello".toList) ("Adele".toList) ("25".toList)
        ("2015-10-23".toList) ("Hello".toList) ("Adele".toList)
        ("25 (Deluxe)".toList) ("2015-11-20".toList)
      = some (Real.sqrt
          (((ro_distance ("Hello".toList) ("Hello".toList) : ℚ) : ℝ) ^ 2
          + ((ro_distance ("Adele".toList) ("Adele".toList) : ℚ) : ℝ) ^ 2
          + ((ro_distance ("25".toList) ("25 (Deluxe)".toList) : ℚ) : ℝ) ^ 2
          + aceh_days (civilDays 2015 10 23) (civilDays 2015 11 20) ^ 2) / 2)
    ∧ 0 ≤ (Real.sqrt
          (((ro_distance ("Hello".toList) ("Hello".toList) : ℚ) : ℝ) ^ 2
          + ((ro_distance ("Adele".toList) ("Adele".toList) : ℚ) : ℝ) ^ 2
          + ((ro_distance ("25".toList) ("25 (Deluxe)".toList) : ℚ) : ℝ) ^ 2
          + aceh_days (civilDays 2015 10 23) (civilDays 2015 11 20) ^ 2) / 2)
    ∧ (Real.sqrt
          (((ro_distance ("Hello".toList) ("Hello".toList) : ℚ) : ℝ) ^ 2
          + ((ro_distance ("Adele".toList) ("Adele".toList) : ℚ) : ℝ) ^ 2
          + ((ro_distance ("25".toList) ("25 (Deluxe)".toList) : ℚ) : ℝ) ^ 2
          + aceh_days (civilDays 2015 10 23) (civilDays 2015 11 20) ^ 2) / 2) ≤ 1.2 := by
  have h : get_tracks_distance ("Hello".toList) ("Adele".toList) ("25".toList)
      ("2015-10-23".toList) ("Hello".toList) ("Adele".toList)
      ("25 (Deluxe)".toList) ("2015-11-20".toList)
      = some (Real.sqrt
          (((ro_distance ("Hello".toList) ("Hello".toList) : ℚ) : ℝ) ^ 2
          + ((ro_distance ("Adele".toList) ("Adele".toList) : ℚ) : ℝ) ^ 2
          + ((ro_distance ("25".toList) ("25 (Deluxe)".toList) : ℚ) : ℝ) ^ 2
          + aceh_days (civilDays 2015 10 23) (civilDays 2015 11 20) ^ 2) / 2) := by
    simp only [get_tracks_distance, aceh_distance, parse_20151023, parse_20151120,
      Option.map_some']
  obtain ⟨w1, w2, -⟩ := get_tracks_distance_bounds _ _ _ _ _ _ _ _ _ h
  exact ⟨h, w1, w2⟩

/-- A track-pair distance exists iff both release dates parse. -/
theorem get_tracks_distance_isSome (aT aA aAl aY bT bA bAl bY : Str) :
    (get_tracks_distance aT aA aAl aY bT bA bAl bY).isSome
      = ((parseDate aY).isSome && (parseDate bY).isSome) := by
  simp only [get_tracks_distance, Option.isSome_map, aceh_distance]
  rcases parseDate aY with _ | da <;> rcases parseDate bY with _ | db <;> simp

/-! ## Claim C9 -/

/-- `get_best_match`'s scan preserves its loop invariant. -/
theorem gbm_fold (aT aA aAl aY : Str) :
    ∀ (l seen : List AMTrack) (acc : ℝ × Option AMTrack),
      (∀ tr ∈ l, (gbmDist aT aA aAl aY tr).isSome = true) →
      GBMInv aT aA aAl aY seen acc →
      GBMInv aT aA aAl aY (seen ++ l)
        (l.foldl (fun acc tr =>
          if (gbmDist aT aA aAl aY tr).getD 1 < acc.1
          then ((gbmDist aT aA aAl aY tr).getD 1, some tr) else acc) acc) := by
  intro l
  induction l with
  | nil => intro seen acc _ hinv; simpa using hinv
  | cons tr l ih =>
    intro seen acc hall hinv
    have htr : (gbmDist aT aA aAl aY tr).isSome = true := hall tr (by simp)
    obtain ⟨dv, hdv⟩ := Option.isSome_iff_exists.mp htr
    obtain ⟨hnone, hsome⟩ := hinv
    have hgbm : GBMInv aT aA aAl aY (seen ++ [tr])
        (if (gbmDist aT aA aAl aY tr).getD 1 < acc.1
         then ((gbmDist aT aA aAl aY tr).getD 1, some tr) else acc) := by
      rw [hdv]
      simp only [Option.getD_some]
      by_cases hlt : dv < acc.1
      · rw [if_pos hlt]
        have hle1 : acc.1 ≤ 1 := by
          cases hacc : acc.2 with
          | none => exact le_of_eq (hnone hacc).1
          | some t' => exact le_of_lt (hsome t' hacc).2.2.1
        constructor
        · intro h; simp at h
        · intro t ht
          simp only [Option.some.injEq] at ht
          subst ht
          refine ⟨by simp, by rw [hdv], by linarith, ?_⟩
          intro tr' htr' dv' hdv'
          rcases List.mem_append.mp htr' with hmem | hmem
          · cases hacc : acc.2 with
            | none =>
              have := (hnone hacc).2 tr' hmem dv' hdv'
              have h1 := (hnone hacc).1
              linarith
            | some t' =>
              have := (hsome t' hacc).2.2.2 tr' hmem dv' hdv'
              linarith
          · simp only [List.mem_singleton] at hmem
            subst hmem
            rw [hdv] at hdv'
            simp only [Option.some.injEq] at hdv'
            simp [hdv']
      · rw [if_neg hlt]
        constructor
        · intro h
          obtain ⟨h1, h2⟩ := hnone h
          refine ⟨h1, ?_⟩
          intro tr' htr' dv' hdv'
          rcases List.mem_append.mp htr' with hmem | hmem
          · exact h2 tr' hmem dv' hdv'
          · simp only [List.mem_singleton] at hmem
            subst hmem
            rw [hdv] at hdv'
            simp only [Option.some.injEq] at hdv'
            subst hdv'
            linarith [not_lt.mp hlt, h1.symm.le]
        · intro t ht
          obtain ⟨m1, m2, m3, m4⟩ := hsome t ht
          refine ⟨List.mem_append.mpr (Or.inl m1), m2, m3, ?_⟩
          intro tr' htr' dv' hdv'
          rcases List.mem_append.mp htr' with hmem | hmem
          · exact m4 tr' hmem dv' hdv'
          · simp only [List.mem_singleton] at hmem
            subst hmem
            rw [hdv] at hdv'
            simp only [Option.some.injEq] at hdv'
            subst hdv'
            exact le_of_not_lt hlt
    have hrest := ih (seen ++ [tr]) _ (fun tr' h => hall tr' (by simp [h])) hgbm
    simpa [List.append_assoc] using hrest

/-- C9: when every candidate's distance is computable, `get_best_match`
returns `(1.0, None)` if the list is empty or every candidate scores at or
above 1.0; otherwise it returns the (first) candidate with the strictly
smallest distance, which is below 1.0 — it never returns a candidate whose
distance is at least 1.0. -/
theorem get_best_match_spec (aT aA aAl aY : Str) (tracks : List AMTrack)
    (hall : ∀ tr ∈ tracks, (gbmDist aT aA aAl aY tr).isSome = true) :
    ∃ nearest best, get_best_match aT aA aAl aY tracks = some (nearest, best)
    ∧ (best = none → nearest = 1
        ∧ ∀ tr ∈ tracks, ∀ dv, gbmDist aT aA aAl aY tr = some dv → 1 ≤ dv)
    ∧ (∀ t, best = some t → t ∈ tracks ∧ gbmDist aT aA aAl aY t = some nearest
        ∧ nearest < 1
        ∧ ∀ tr ∈ tracks, ∀ dv, gbmDist aT aA aAl aY tr = some dv → nearest ≤ dv) := by
  have h0 : GBMInv aT aA aAl aY [] ((1 : ℝ), (none : Option AMTrack)) :=
    ⟨fun _ => ⟨rfl, by simp⟩, fun t ht => by simp at ht⟩
  have hf := gbm_fold aT aA aAl aY tracks [] (1, none) hall h0
  simp only [List.nil_append] at hf
  obtain ⟨hfn, hfs⟩ := hf
  refine ⟨_, _, ?_, hfn, hfs⟩
  unfold get_best_match
  have hguard : (tracks.all fun tr => (get_tracks_distance aT aA aAl aY
      tr.trackName tr.artistName tr.collectionName tr.releaseDate).isSome) = true :=
    List.all_eq_true.mpr (fun tr h => hall tr h)
  rw [hguard]
  simp only [if_true]
  rw [Prod.mk.eta]
  rfl

/-- Witness for C9: against the `spotSong` fields, the scan over
`[amFar, amGood]` succeeds (both dates parse). -/
theorem get_best_match_spec_witness :
    ∃ nearest best,
      get_best_match ("Hello".toList) ("Adele".toList) ("25".toList)
        ("2015-10-23".toList) [amFar, amGood] = some (nearest, best)
      ∧ (best = none → nearest = 1
          ∧ ∀ tr ∈ [amFar, amGood], ∀ dv,
              gbmDist ("Hello".toList) ("Adele".toList) ("25".toList)
                ("2015-10-23".toList) tr = some dv → 1 ≤ dv)
      ∧ (∀ t, best = some t → t ∈ [amFar, amGood]
          ∧ gbmDist ("Hello".toList) ("Adele".toList) ("25".toList)
              ("2015-10-23".toList) t = some nearest
          ∧ nearest < 1
          ∧ ∀ tr ∈ [amFar, amGood], ∀ dv,
              gbmDist ("Hello".toList) ("Adele".toList) ("25".toList)
                ("2015-10-23".toList) tr = some dv → nearest ≤ dv) := by
  refine get_best_match_spec _ _ _ _ _ ?_
  intro tr htr
  fin_cases htr <;>
    · unfold gbmDist
      rw [get_tracks_distance_isSome]
      decide

/-! ## Claim C1 -/

/-- C1: with at least two candidates whose distances all compute, `resolve`
ranks the candidates ascending by distance with Python's stable sort
(`List.mergeSort` on the non-strict key comparison: the ranking is a
permutation of the candidates, pairwise sorted by distance, and any two
candidates in key order — in particular ties — keep their original relative
order), and then decides on the distance `d` of the top-ranked candidate:
`Selected(top)` if `d < err`; else `Selected(top)` if `auto` and
`d < thresh`; else it defers to the external chooser with the full ranked
list. -/
theorem resolve_ranks (song : SpfTrack) (c1 c2 : AMTrack) (rest : List AMTrack)
    (err thresh : ℝ) (auto : Bool)
    (hall : ∀ c ∈ c1 :: c2 :: rest, (distance c song).isSome = true) :
    (∀ c ∈ c1 :: c2 :: rest, distance c song = some (distKey song c))
    ∧ ((c1 :: c2 :: rest).mergeSort
        (fun x y => decide (distKey song x ≤ distKey song y))).Perm (c1 :: c2 :: rest)
    ∧ List.Pairwise (fun x y => distKey song x ≤ distKey song y)
        ((c1 :: c2 :: rest).mergeSort (fun x y => decide (distKey song x ≤ distKey song y)))
    ∧ (∀ x y : AMTrack, distKey song x ≤ distKey song y →
        [x, y].Sublist (c1 :: c2 :: rest) →
        [x, y].Sublist ((c1 :: c2 :: rest).mergeSort
          (fun x y => decide (distKey song x ≤ distKey song y))))
    ∧ resolve song (c1 :: c2 :: rest) err thresh auto =
        some (let ranked := ((c1 :: c2 :: rest).mergeSort
            (fun x y => decide (distKey song x ≤ distKey song y)));
          if distKey song ranked.headI < err then Decision.selected ranked.headI
          else if auto = true ∧ distKey song ranked.headI < thresh then
            Decision.selected ranked.headI
          else Decision.deferToUser ranked) := by
  have htrans : ∀ x y z : AMTrack,
      decide (distKey song x ≤ distKey song y) = true →
      decide (distKey song y ≤ distKey song z) = true →
      decide (distKey song x ≤ distKey song z) = true := by
    intro x y z hxy hyz
    simp only [decide_eq_true_eq] at hxy hyz ⊢
    exact le_trans hxy hyz
  have htot : ∀ x y : AMTrack,
      (decide (distKey song x ≤ distKey song y)
        || decide (distKey song y ≤ distKey song x)) = true := by
    intro x y
    simp only [Bool.or_eq_true, decide_eq_true_eq]
    exact le_total _ _
  refine ⟨?_, List.mergeSort_perm _ _, ?_, ?_, ?_⟩
  · intro c hc
    obtain ⟨v, hv⟩ := Option.isSome_iff_exists.mp (hall c hc)
    rw [hv]
    simp [distKey, hv]
  · exact (List.sorted_mergeSort htrans htot (c1 :: c2 :: rest)).imp
      (fun h => by simpa using h)
  · intro x y hxy hsub
    exact List.mergeSort_stable_pair htrans htot (by simpa using hxy) hsub
  · rw [resolve_cons₂, if_pos (List.all_eq_true.mpr hall)]
    dsimp only
    split_ifs <;> rfl

/-- Witness for C1 at a concrete two-candidate input. -/
theorem resolve_ranks_witness :
    (∀ c ∈ [amFar, amGood], (distance c spotSong).isSome = true)
    ∧ ((∀ c ∈ [amFar, amGood], distance c spotSong = some (distKey spotSong c))
      ∧ ([amFar, amGood].mergeSort
          (fun x y => decide (distKey spotSong x ≤ distKey spotSong y))).Perm [amFar, amGood]
      ∧ List.Pairwise (fun x y => distKey spotSong x ≤ distKey spotSong y)
          ([amFar, amGood].mergeSort
            (fun x y => decide (distKey spotSong x ≤ distKey spotSong y)))
      ∧ (∀ x y : AMTrack, distKey spotSong x ≤ distKey spotSong y →
          [x, y].Sublist [amFar, amGood] →
          [x, y].Sublist ([amFar, amGood].mergeSort
            (fun x y => decide (distKey spotSong x ≤ distKey spotSong y))))
      ∧ resolve spotSong [amFar, amGood] ((1 : ℝ) / 4) ((1 : ℝ) / 2) false =
          some (let ranked := ([amFar, amGood].mergeSort
              (fun x y => decide (distKey spotSong x ≤ distKey spotSong y)));
            if distKey spotSong ranked.headI < (1 : ℝ) / 4 then
              Decision.selected ranked.headI
            else if false = true ∧ distKey spotSong ranked.headI < (1 : ℝ) / 2 then
              Decision.selected ranked.headI
            else Decision.deferToUser ranked)) := by
  have hall : ∀ c ∈ [amFar, amGood], (distance c spotSong).isSome = true := by
    intro c hc
    fin_cases hc <;> (rw [distance_isSome_iff]; decide)
  exact ⟨hall, resolve_ranks spotSong amFar amGood [] ((1 : ℝ) / 4) ((1 : ℝ) / 2) false hall⟩

/-! ## Claim C10 -/

/-- C10: in the chooser, a digit reply indexes the full ranked list (the
current page is quantified over and plays no role), and any reply that is
neither a digit string nor one of `s`, `n`, `p` selects index 0 of the full
list, again regardless of the page. -/
theorem selectSong_full_list_indexing (songs : List AMTrack) (page : Nat) (ans : Str) :
    (isDigitStr ans = true → ∀ t, songs[digitsToNat ans]? = some t →
      selectSongStep songs page ans = ChooserStep.chosen t)
    ∧ (isDigitStr ans = false → lowerStr ans ≠ ['s'] → lowerStr ans ≠ ['n'] →
      lowerStr ans ≠ ['p'] → ∀ t, songs[0]? = some t →
      selectSongStep songs page ans = ChooserStep.chosen t) := by
  constructor
  · intro hd t ht
    have hs : lowerStr ans ≠ ['s'] := fun h => by
      have := isDigit_of_lowerStr_single hd h
      simp at this
    have hn : lowerStr ans ≠ ['n'] := fun h => by
      have := isDigit_of_lowerStr_single hd h
      simp at this
    have hp : lowerStr ans ≠ ['p'] := fun h => by
      have := isDigit_of_lowerStr_single hd h
      simp at this
    simp [selectSongStep, hs, hn, hp, hd, ht]
  · intro hd hs hn hp t ht
    simp [selectSongStep, hs, hn, hp, hd, ht]

/-- Witness for C10 at concrete inputs: the digit reply `1` picks element 1
of the full list even though the displayed page is 3, and a junk reply
picks element 0 even on page 7. -/
theorem selectSong_full_list_indexing_witness :
    selectSongStep [amGood, amBad, amFar] 3 ['1'] = ChooserStep.chosen amBad
    ∧ selectSongStep [amGood, amBad, amFar] 7 ("x!".toList) = ChooserStep.chosen amGood := by
  refine ⟨?_, ?_⟩
  · exact (selectSong_full_list_indexing [amGood, amBad, amFar] 3 ['1']).1
      (by decide) amBad (by decide)
  · exact (selectSong_full_list_indexing [amGood, amBad, amFar] 7 ("x!".toList)).2
      (by decide) (by decide) (by decide) (by decide) amGood (by decide)

/-! ## Identical strings: the matching blocks cover everything

When `a = b = s` and the two windows agree, `find_longest_match` always
returns a diagonal block, so the `get_matching_blocks` recursion covers the
whole window and `ratio` is exactly 1.  The key facts are that among runs
of equal length the scan meets a diagonal one first (strict-improvement
updates therefore only ever install diagonal blocks), and that the
extension loops preserve diagonality. -/

/-- Against itself, a run ending at `(i, j)` with `j ≥ i` is no longer than
the diagonal run ending at `(i, i)`. -/
theorem runlen_le_diag_right (s : Str) (alo bhi : Nat) :
    ∀ i, alo ≤ i → i < bhi → ∀ j, i ≤ j →
      runlen s s alo alo bhi i j ≤ runlen s s alo alo bhi i i := by
  intro i
  induction i using Nat.strong_induction_on with
  | _ i ih =>
    intro hai hib j hij
    have heqj := runlen_eq s s alo alo bhi i j
    by_cases hv : validm s s alo bhi i j = true
    · obtain ⟨y, hyi, hyj, hyjunk⟩ := validm_get hv
      have hvii : validm s s alo bhi i i = true := validm_intro y hyi hyi hyjunk hai hib
      have heqi := runlen_eq s s alo alo bhi i i
      rw [if_pos hv] at heqj
      rw [if_pos hvii] at heqi
      by_cases hc : alo < i ∧ 0 < j
      · rw [if_pos hc] at heqj
        rw [if_pos (⟨hc.1, by omega⟩ : alo < i ∧ 0 < i)] at heqi
        have hrec := ih (i - 1) (by omega) (by omega) (by omega) (j - 1) (by omega)
        omega
      · rw [if_neg hc] at heqj
        omega
    · rw [if_neg hv] at heqj
      omega

/-- Against itself, a run ending at `(i, j)` with `j ≤ i` is no longer than
the diagonal run ending at `(j, j)`. -/
theorem runlen_le_diag_left (s : Str) (alo bhi : Nat) :
    ∀ i j, j ≤ i → runlen s s alo alo bhi i j ≤ runlen s s alo alo bhi j j := by
  intro i
  induction i using Nat.strong_induction_on with
  | _ i ih =>
    intro j hji
    have heqj := runlen_eq s s alo alo bhi i j
    by_cases hv : validm s s alo bhi i j = true
    · obtain ⟨y, hyi, hyj, hyjunk⟩ := validm_get hv
      obtain ⟨hbj, hjb⟩ := validm_window hv
      have hvjj : validm s s alo bhi j j = true := validm_intro y hyj hyj hyjunk hbj hjb
      have heqjj := runlen_eq s s alo alo bhi j j
      rw [if_pos hv] at heqj
      rw [if_pos hvjj] at heqjj
      by_cases hc : alo < i ∧ 0 < j
      · rw [if_pos hc] at heqj
        by_cases hcj : alo < j ∧ 0 < j
        · rw [if_pos hcj] at heqjj
          have hrec := ih (i - 1) (by omega) (j - 1) (by omega)
          omega
        · rw [if_neg hcj] at heqjj
          have h0 : runlen s s alo alo bhi (i - 1) (j - 1) = 0 := by
            have heq2 := runlen_eq s s alo alo bhi (i - 1) (j - 1)
            by_cases hv2 : validm s s alo bhi (i - 1) (j - 1) = true
            · obtain ⟨hw1, hw2⟩ := validm_window hv2
              omega
            · rw [if_neg hv2] at heq2
              exact heq2
          omega
      · rw [if_neg hc] at heqj
        omega
    · rw [if_neg hv] at heqj
      omega

/-- A valid cell's column is scanned in its row. -/
theorem validm_mem_jlist {a b : Str} {blo bhi i j : Nat}
    (h : validm a b blo bhi i j = true) : j ∈ jlist a b blo bhi i := by
  obtain ⟨y, hyi, hyj, hyjunk⟩ := validm_get h
  obtain ⟨h1, h2⟩ := validm_window h
  unfold jlist
  rw [hyi]
  dsimp only
  rw [List.mem_filter]
  refine ⟨?_, by simp [h1, h2]⟩
  unfold b2j
  rw [if_neg (by simp [hyjunk])]
  rw [List.mem_filter]
  refine ⟨List.mem_range.mpr (List.getElem?_eq_some.mp hyj).1, by simp [hyj]⟩

/-- A column absent from the scan list is not a valid cell. -/
theorem runlen_eq_zero_of_not_mem_jlist {a b : Str} {alo blo bhi i j : Nat}
    (h : j ∉ jlist a b blo bhi i) : runlen a b alo blo bhi i j = 0 := by
  have heq := runlen_eq a b alo blo bhi i j
  by_cases hv : validm a b blo bhi i j = true
  · exact absurd (validm_mem_jlist hv) h
  · rw [if_neg hv] at heq
    exact heq

/-- The scan list of one row is strictly increasing. -/
theorem jlist_sorted (a b : Str) (blo bhi i : Nat) :
    (jlist a b blo bhi i).Pairwise (· < ·) := by
  unfold jlist
  apply List.Pairwise.filter
  cases a[i]? with
  | none => exact List.Pairwise.nil
  | some c =>
    dsimp only
    unfold b2j
    by_cases hj : isjunk c = true
    · rw [if_pos hj]
      exact List.Pairwise.nil
    · rw [if_neg hj]
      exact (List.pairwise_lt_range _).filter _

/-- One row of the core scan preserves the diagonal invariant, and after
the row is processed the best size dominates the row's diagonal run.  The
key case analysis: a cell left of the diagonal is dominated by an earlier
diagonal run (already below the best size), the diagonal cell itself either
updates the best to a diagonal block or was already dominated, and a cell
right of the diagonal is dominated by this row's diagonal run, which was
scanned earlier in the (strictly increasing) column list. -/
theorem innerLoop_diag_aux (s : Str) (alo bhi i : Nat) (hai : alo ≤ i) (hib : i < bhi) :
    ∀ (L : List Nat) (m : Match3), L.Pairwise (· < ·) →
      DiagInv s alo bhi i m →
      (i ∉ L → runlen s s alo alo bhi i i ≤ m.size) →
      DiagInv s alo bhi i
        (L.foldl (fun best j =>
          let k := runlen s s alo alo bhi i j
          if best.size < k then ⟨i + 1 - k, j + 1 - k, k⟩ else best) m)
      ∧ runlen s s alo alo bhi i i ≤
        (L.foldl (fun best j =>
          let k := runlen s s alo alo bhi i j
          if best.size < k then ⟨i + 1 - k, j + 1 - k, k⟩ else best) m).size := by
  intro L
  induction L with
  | nil =>
    intro m hpw hm hD
    exact ⟨hm, hD (by simp)⟩
  | cons j L ih =>
    intro m hpw hm hD
    obtain ⟨hjall, hpw'⟩ := List.pairwise_cons.mp hpw
    rw [List.foldl_cons]
    have hfmj : DiagInv s alo bhi i
        ((fun (best : Match3) (j : Nat) =>
          let k := runlen s s alo alo bhi i j
          if best.size < k then (⟨i + 1 - k, j + 1 - k, k⟩ : Match3) else best) m j)
        ∧ (i ∉ L → runlen s s alo alo bhi i i ≤
          ((fun (best : Match3) (j : Nat) =>
            let k := runlen s s alo alo bhi i j
            if best.size < k then (⟨i + 1 - k, j + 1 - k, k⟩ : Match3) else best) m j).size) := by
      dsimp only
      rcases lt_trichotomy j i with hji | heq | hij
      · -- j < i : the run is dominated, no update
        have hk : runlen s s alo alo bhi i j ≤ m.size := by
          rcases Nat.lt_or_ge j alo with hja | haj
          · have h0 : runlen s s alo alo bhi i j = 0 := by
              have heq := runlen_eq s s alo alo bhi i j
              by_cases hv : validm s s alo bhi i j = true
              · obtain ⟨hw1, hw2⟩ := validm_window hv
                omega
              · rw [if_neg hv] at heq
                exact heq
            omega
          · have hle := runlen_le_diag_left s alo bhi i j (le_of_lt hji)
            have hdom := hm.2.2 j haj hji
            omega
        rw [if_neg (by omega)]
        refine ⟨hm, fun hnot => hD ?_⟩
        intro hmem
        rcases List.mem_cons.mp hmem with h | h
        · omega
        · exact hnot h
      · -- j = i : a diagonal update (or already dominated)
        rw [heq]
        by_cases hupd : m.size < runlen s s alo alo bhi i i
        · rw [if_pos hupd]
          refine ⟨⟨rfl, ?_, ?_⟩, ?_⟩
          · intro h0
            dsimp only at h0
            omega
          · intro d hd1 hd2
            have := hm.2.2 d hd1 hd2
            dsimp only
            omega
          · intro _
            dsimp only
            omega
        · rw [if_neg hupd]
          exact ⟨hm, fun _ => by omega⟩
      · -- i < j : this row's diagonal was scanned earlier, no update
        have hii_bound : runlen s s alo alo bhi i i ≤ m.size := by
          refine hD ?_
          intro hmem
          rcases List.mem_cons.mp hmem with h | h
          · omega
          · exact absurd (hjall i h) (by omega)
        have hk := runlen_le_diag_right s alo bhi i hai hib j (le_of_lt hij)
        rw [if_neg (by omega)]
        exact ⟨hm, fun _ => hii_bound⟩
    exact ih _ hpw' hfmj.1 hfmj.2

/-- The whole core scan over the rows `[start, start + cnt)` preserves the
diagonal invariant. -/
theorem coreLoop_diag_aux (s : Str) (alo bhi : Nat) :
    ∀ (cnt start : Nat) (m : Match3), alo ≤ start → start + cnt ≤ bhi →
      DiagInv s alo bhi start m →
      DiagInv s alo bhi (start + cnt)
        ((List.range' start cnt).foldl
          (fun best i => innerLoop s s alo alo bhi i best) m) := by
  intro cnt
  induction cnt with
  | zero => intro start m h1 h2 hm; simpa using hm
  | succ cnt ih =>
    intro start m h1 h2 hm
    rw [List.range'_succ, List.foldl_cons]
    have hstep := innerLoop_diag_aux s alo bhi start h1 (by omega)
      (jlist s s alo bhi start) m (jlist_sorted s s alo bhi start) hm
      (fun hnot => by
        have h0 : runlen s s alo alo bhi start start = 0 :=
          runlen_eq_zero_of_not_mem_jlist hnot
        omega)
    have hnext : DiagInv s alo bhi (start + 1) (innerLoop s s alo alo bhi start m) := by
      obtain ⟨⟨d1, d2, d3⟩, dbound⟩ := hstep
      refine ⟨d1, d2, ?_⟩
      intro d hd1 hd2
      rcases Nat.lt_or_ge d start with hds | hds
      · exact d3 d hd1 hds
      · have hds' : d = start := by omega
        subst hds'
        exact dbound
    have hres := ih (start + 1) (innerLoop s s alo alo bhi start m) (by omega) (by omega) hnext
    have harith : start + 1 + cnt = start + (cnt + 1) := by omega
    rw [harith] at hres
    exact hres

/-- The core loop over equal windows of `s` against itself returns a
diagonal block dominating every diagonal run in the window. -/
theorem coreLoop_diag (s : Str) (alo ahi : Nat) (h : alo ≤ ahi) :
    DiagInv s alo ahi ahi (coreLoop s s alo ahi alo ahi) := by
  unfold coreLoop
  have hres := coreLoop_diag_aux s alo ahi (ahi - alo) alo ⟨alo, alo, 0⟩ (le_refl _)
    (by omega) ⟨rfl, fun _ => rfl, fun d hd1 hd2 => absurd hd2 (by omega)⟩
  have harith : alo + (ahi - alo) = ahi := by omega
  rw [harith] at hres
  exact hres

/-- The forward extension loops never move the block start. -/
theorem extendFwd_besti_bestj (a b : Str) (ahi bhi : Nat) (junkF : Bool) :
    ∀ m : Match3, (extendFwd a b ahi bhi junkF m).besti = m.besti
      ∧ (extendFwd a b ahi bhi junkF m).bestj = m.bestj := by
  have H : ∀ n (m : Match3), ahi - (m.besti + m.size) ≤ n →
      (extendFwd a b ahi bhi junkF m).besti = m.besti
      ∧ (extendFwd a b ahi bhi junkF m).bestj = m.bestj := by
    intro n
    induction n with
    | zero =>
      intro m hle
      rw [extendFwd]
      split
      · next h => exact absurd h.1 (by omega)
      · exact ⟨rfl, rfl⟩
    | succ n ih =>
      intro m hle
      rw [extendFwd]
      split
      · next h =>
        have := ih ⟨m.besti, m.bestj, m.size + 1⟩ (by dsimp only; omega)
        exact this
      · exact ⟨rfl, rfl⟩
  exact fun m => H (ahi - (m.besti + m.size)) m (le_refl _)

/-- The backward extension loops preserve diagonality. -/
theorem extendBack_diag (a b : Str) (alo blo : Nat) (junkF : Bool) :
    ∀ m : Match3, m.besti = m.bestj →
      (extendBack a b alo blo junkF m).besti = (extendBack a b alo blo junkF m).bestj := by
  have H : ∀ n (m : Match3), m.besti ≤ n → m.besti = m.bestj →
      (extendBack a b alo blo junkF m).besti = (extendBack a b alo blo junkF m).bestj := by
    intro n
    induction n with
    | zero =>
      intro m hle hdg
      rw [extendBack]
      split
      · next h => exact absurd h.1 (by omega)
      · exact hdg
    | succ n ih =>
      intro m hle hdg
      rw [extendBack]
      split
      · next h =>
        exact ih ⟨m.besti - 1, m.bestj - 1, m.size + 1⟩ (by dsimp only; omega) (by dsimp only; omega)
      · exact hdg
  exact fun m hdg => H m.besti m (le_refl _) hdg

/-- The backward extension loops never shrink the block. -/
theorem extendBack_size_mono (a b : Str) (alo blo : Nat) (junkF : Bool) :
    ∀ m : Match3, m.size ≤ (extendBack a b alo blo junkF m).size := by
  have H : ∀ n (m : Match3), m.besti ≤ n → m.size ≤ (extendBack a b alo blo junkF m).size := by
    intro n
    induction n with
    | zero =>
      intro m hle
      rw [extendBack]
      split
      · next h => exact absurd h.1 (by omega)
      · exact le_refl _
    | succ n ih =>
      intro m hle
      rw [extendBack]
      split
      · next h =>
        have := ih ⟨m.besti - 1, m.bestj - 1, m.size + 1⟩ (by dsimp only; omega)
        dsimp only at this
        omega
      · exact le_refl _
  exact fun m => H m.besti m (le_refl _)

/-- The forward extension loops never shrink the block. -/
theorem extendFwd_size_mono (a b : Str) (ahi bhi : Nat) (junkF : Bool) :
    ∀ m : Match3, m.size ≤ (extendFwd a b ahi bhi junkF m).size := by
  have H : ∀ n (m : Match3), ahi - (m.besti + m.size) ≤ n →
      m.size ≤ (extendFwd a b ahi bhi junkF m).size := by
    intro n
    induction n with
    | zero =>
      intro m hle
      rw [extendFwd]
      split
      · next h => exact absurd h.1 (by omega)
      · exact le_refl _
    | succ n ih =>
      intro m hle
      rw [extendFwd]
      split
      · next h =>
        have := ih ⟨m.besti, m.bestj, m.size + 1⟩ (by dsimp only; omega)
        dsimp only at this
        omega
      · exact le_refl _
  exact fun m => H (ahi - (m.besti + m.size)) m (le_refl _)

/-- A backward extension that returns a zero-size block did nothing. -/
theorem extendBack_eq_of_size_zero (a b : Str) (alo blo : Nat) (junkF : Bool)
    (m : Match3) (h : (extendBack a b alo blo junkF m).size = 0) :
    extendBack a b alo blo junkF m = m := by
  rw [extendBack] at h ⊢
  split at h
  · next hg =>
    have hmono := extendBack_size_mono a b alo blo junkF
      ⟨m.besti - 1, m.bestj - 1, m.size + 1⟩
    dsimp only at hmono
    omega
  · next hg =>
    rw [dif_neg hg]

/-- A forward extension that returns a zero-size block did nothing. -/
theorem extendFwd_eq_of_size_zero (a b : Str) (ahi bhi : Nat) (junkF : Bool)
    (m : Match3) (h : (extendFwd a b ahi bhi junkF m).size = 0) :
    extendFwd a b ahi bhi junkF m = m := by
  rw [extendFwd] at h ⊢
  split at h
  · next hg =>
    have hmono := extendFwd_size_mono a b ahi bhi junkF ⟨m.besti, m.bestj, m.size + 1⟩
    dsimp only at hmono
    omega
  · next hg =>
    rw [dif_neg hg]

/-- On a non-empty window of `s` against itself, `find_longest_match`
returns a non-empty diagonal block: the core best is diagonal, the
extension loops keep it diagonal, and if everything had size 0 the window
would have to start with a character that is neither junk (else the
forward junk extension fires) nor non-junk (else its diagonal run is a
positive lower bound for the core best size). -/
theorem find_longest_match_self (s : Str) (alo ahi : Nat) (h1 : alo < ahi)
    (h2 : ahi ≤ s.length) :
    (find_longest_match s s alo ahi alo ahi).besti
      = (find_longest_match s s alo ahi alo ahi).bestj
    ∧ 1 ≤ (find_longest_match s s alo ahi alo ahi).size := by
  obtain ⟨cd1, cd2, cd3⟩ := coreLoop_diag s alo ahi (le_of_lt h1)
  have hflm : find_longest_match s s alo ahi alo ahi
      = extendFwd s s ahi ahi true (extendBack s s alo alo true
        (extendFwd s s ahi ahi false (extendBack s s alo alo false
          (coreLoop s s alo ahi alo ahi)))) := rfl
  have hd1 := extendBack_diag s s alo alo false (coreLoop s s alo ahi alo ahi) cd1
  have hd2 : (extendFwd s s ahi ahi false (extendBack s s alo alo false
      (coreLoop s s alo ahi alo ahi))).besti
      = (extendFwd s s ahi ahi false (extendBack s s alo alo false
        (coreLoop s s alo ahi alo ahi))).bestj := by
    obtain ⟨e1, e2⟩ := extendFwd_besti_bestj s s ahi ahi false
      (extendBack s s alo alo false (coreLoop s s alo ahi alo ahi))
    rw [e1, e2]
    exact hd1
  have hd3 := extendBack_diag s s alo alo true _ hd2
  have hd4 : (find_longest_match s s alo ahi alo ahi).besti
      = (find_longest_match s s alo ahi alo ahi).bestj := by
    rw [hflm]
    obtain ⟨e1, e2⟩ := extendFwd_besti_bestj s s ahi ahi true
      (extendBack s s alo alo true (extendFwd s s ahi ahi false
        (extendBack s s alo alo false (coreLoop s s alo ahi alo ahi))))
    rw [e1, e2]
    exact hd3
  refine ⟨hd4, ?_⟩
  by_contra hlt
  have hz : (find_longest_match s s alo ahi alo ahi).size = 0 := by omega
  rw [hflm] at hz
  have e4 := extendFwd_eq_of_size_zero s s ahi ahi true _ hz
  rw [e4] at hz
  have e3 := extendBack_eq_of_size_zero s s alo alo true _ hz
  rw [e3] at hz
  have e2 := extendFwd_eq_of_size_zero s s ahi ahi false _ hz
  rw [e2] at hz
  have e1 := extendBack_eq_of_size_zero s s alo alo false _ hz
  rw [e1] at hz
  -- hz : (coreLoop s s alo ahi alo ahi).size = 0, so the core best is the
  -- initial (alo, alo, 0).
  have hinit : coreLoop s s alo ahi alo ahi = ⟨alo, alo, 0⟩ := cd2 hz
  obtain ⟨c, hc⟩ : ∃ c, s[alo]? = some c :=
    ⟨s.get ⟨alo, by omega⟩, List.getElem?_eq_getElem (by omega)⟩
  by_cases hjunk : isjunk c = true
  · -- the forward junk extension fires on (alo, alo, 0)
    have hfire : 1 ≤ (extendFwd s s ahi ahi true (⟨alo, alo, 0⟩ : Match3)).size := by
      rw [extendFwd]
      rw [dif_pos ⟨by dsimp only; omega, by dsimp only; omega, by
        dsimp only
        simp only [Nat.add_zero, hc, chEq, hjunk, beq_self_eq_true, Bool.and_self]⟩]
      dsimp only
      simp only [Nat.zero_add]
      have := extendFwd_size_mono s s ahi ahi true (⟨alo, alo, 1⟩ : Match3)
      dsimp only at this
      omega
    rw [e3] at e4
    rw [e2] at e4
    rw [e1] at e4
    rw [hinit] at e4
    -- e4 now says the junk extension of (alo, alo, 0) is (alo, alo, 0)
    rw [e4] at hfire
    dsimp only at hfire
    omega
  · -- s[alo] is interesting, so the diagonal run at alo is positive
    have hjunk' : isjunk c = false := by
      revert hjunk
      cases isjunk c <;> simp
    have hv : validm s s alo ahi alo alo = true :=
      validm_intro c hc hc hjunk' (le_refl alo) h1
    have hr : 1 ≤ runlen s s alo alo ahi alo alo := by
      have heq := runlen_eq s s alo alo ahi alo alo
      rw [if_pos hv] at heq
      omega
    have hbound := cd3 alo (le_refl _) h1
    omega

/-- Over equal windows of `s` against itself the matching blocks cover the
whole window. -/
theorem matchTotalAux_self (s : Str) :
    ∀ fuel alo ahi, alo ≤ ahi → ahi ≤ s.length → ahi - alo ≤ fuel →
      matchTotalAux s s fuel alo ahi alo ahi = ahi - alo := by
  intro fuel
  induction fuel with
  | zero =>
    intro alo ahi h1 h2 h3
    simp only [matchTotalAux]
    omega
  | succ fuel ih =>
    intro alo ahi h1 h2 h3
    simp only [matchTotalAux]
    rcases eq_or_lt_of_le h1 with heq | hlt
    · subst heq
      obtain ⟨g1, g2, g3, g4⟩ := find_longest_match_MInv s s alo alo alo alo
      have hsz : (find_longest_match s s alo alo alo alo).size = 0 := by
        by_contra hne
        have := g4 (Nat.pos_of_ne_zero hne)
        omega
      rw [if_pos hsz]
      omega
    · obtain ⟨hdiag, hsz1⟩ := find_longest_match_self s alo ahi hlt h2
      obtain ⟨g1, g2, g3, g4⟩ := find_longest_match_MInv s s alo ahi alo ahi
      set m := find_longest_match s s alo ahi alo ahi with hm
      have hbounds := g4 (by omega)
      rw [if_neg (by omega)]
      rw [← hdiag]
      by_cases hc1 : alo < m.besti ∧ alo < m.besti
      · rw [if_pos hc1]
        have hLeft : matchTotalAux s s fuel alo m.besti alo m.besti = m.besti - alo :=
          ih alo m.besti (by omega) (by omega) (by omega)
        by_cases hc2 : m.besti + m.size < ahi ∧ m.besti + m.size < ahi
        · rw [if_pos hc2]
          have hRight : matchTotalAux s s fuel (m.besti + m.size) ahi
              (m.besti + m.size) ahi = ahi - (m.besti + m.size) :=
            ih (m.besti + m.size) ahi (by omega) (by omega) (by omega)
          omega
        · rw [if_neg hc2]
          omega
      · rw [if_neg hc1]
        by_cases hc2 : m.besti + m.size < ahi ∧ m.besti + m.size < ahi
        · rw [if_pos hc2]
          have hRight : matchTotalAux s s fuel (m.besti + m.size) ahi
              (m.besti + m.size) ahi = ahi - (m.besti + m.size) :=
            ih (m.besti + m.size) ahi (by omega) (by omega) (by omega)
          omega
        · rw [if_neg hc2]
          omega

/-- `SequenceMatcher.ratio()` of a string against itself is exactly 1, junk
characters included (they are matched by the junk extension loops). -/
theorem ratioQ_self (s : Str) : ratioQ s s = 1 := by
  unfold ratioQ
  by_cases h : s.length + s.length = 0
  · rw [if_pos h]
  · rw [if_neg h]
    have hmt : matchTotal s s = s.length := by
      unfold matchTotal
      have := matchTotalAux_self s (s.length + s.length) 0 s.length
        (Nat.zero_le _) (le_refl _) (by omega)
      simpa using this
    rw [hmt]
    have hl : (0 : ℚ) < (s.length : ℚ) + (s.length : ℚ) := by
      have hp : 0 < s.length := by omega
      exact_mod_cast by omega
    field_simp
    ring

/-- The lexical sub-distance of a string against itself is exactly 0. -/
theorem ro_distance_self (s : Str) : ro_distance s s = 0 := by
  unfold ro_distance
  rw [ratioQ_self]
  ring

/-! ## Claim C5 -/

/-- C5: for two track descriptors whose title, artist and album strings are
respectively identical and whose (parseable) release dates are identical,
`get_tracks_distance` returns exactly 0: every Ratcliff/Obershelp
sub-distance of an identical pair is 0 (the junk-extension loops match even
junk characters of identical strings), the temporal sub-distance of a zero
day gap is 0, and `sqrt(0)/2 = 0`. -/
theorem get_tracks_distance_self_zero (t ar al y : Str) (dy : Int)
    (hy : parseDate y = some dy) :
    get_tracks_distance t ar al y t ar al y = some 0 := by
  unfold get_tracks_distance aceh_distance
  rw [hy]
  have hz : aceh_days dy dy = 0 := by
    simp [aceh_days, acehF, Real.log_one]
  simp [hz, ro_distance_self, Real.sqrt_zero]

/-- Witness for C5 at a concrete identical pair. -/
theorem get_tracks_distance_self_zero_witness :
    parseDate ("2015-10-23".toList) = some (civilDays 2015 10 23)
    ∧ get_tracks_distance ("Hello".toList) ("Adele".toList) ("25".toList)
        ("2015-10-23".toList) ("Hello".toList) ("Adele".toList) ("25".toList)
        ("2015-10-23".toList) = some 0 :=
  ⟨parse_20151023,
    get_tracks_distance_self_zero ("Hello".toList) ("Adele".toList) ("25".toList)
      ("2015-10-23".toList) (civilDays 2015 10 23) parse_20151023⟩

end Eumenes
